import Mathlib

/-!
Shallow embedding of the lift simulator core (`src/building.rs`).

Floors are `Int` (the source uses `i32`; no arithmetic in the modelled paths
comes near the `i32` range, overflow is not modelled).  Time (the travel and
door-dwell sleeps) is not modelled; each timed operation is embedded by its
net effect on the lift state.  Lock acquisition on a lift's fields can fail
in the source (`RwLock` poisoning); at the building layer this is modelled
by a per-lift `readable` flag, and the per-lift state-machine operations are
modelled as pure functions on the unlocked state.
-/

/-- Mirrors `enum Direction { Up, Down, Stopped }`. -/
inductive Direction where
  | Up : Direction
  | Down : Direction
  | Stopped : Direction
deriving DecidableEq, Repr

/-- Mirrors `struct Passenger { from_floor: i32, to_floor: i32, riding: bool }`.
The `riding` field is private in the source; outside the module a `Passenger`
can only be built through `Passenger::new`. -/
structure Passenger where
  from_floor : Int
  to_floor : Int
  riding : Bool
deriving DecidableEq, Repr

/-- Mirrors `Passenger::new`, which sets `riding` to `false`. -/
def Passenger.new (from_floor to_floor : Int) : Passenger :=
  { from_floor := from_floor, to_floor := to_floor, riding := false }

/-- The derived lexicographic `Ord` on `Passenger` (field order
`from_floor`, `to_floor`, `riding`; in Rust `false < true`), as the boolean
strict-less-than test that `binary_add` consults. -/
def Passenger.lt (a b : Passenger) : Bool :=
  if a.from_floor ≠ b.from_floor then a.from_floor < b.from_floor
  else if a.to_floor ≠ b.to_floor then a.to_floor < b.to_floor
  else !a.riding && b.riding

/-- Strict less-than on floors as a boolean test, the `Ord` instance used by
the target queue. -/
def intLt (x y : Int) : Bool := x < y

/-- Model of `slice::binary_search` (standard library, not repository code)
by its documented contract, which is deterministic on the sorted,
duplicate-free sequences this program searches: `Ok pos` with `pos` the index
of the element when present, `Err pos` with `pos` the insertion position
keeping the slice sorted when absent.  Both positions equal the length of the
maximal prefix of elements below the key. -/
def binary_search {α : Type} [DecidableEq α] (lt : α → α → Bool) (l : List α) (x : α) :
    Except Nat Nat :=
  let pos := (l.takeWhile (fun y => lt y x)).length
  if x ∈ l then Except.ok pos else Except.error pos

/-- Mirrors `fn binary_add<T: Ord>(vec: &mut Vec<T>, item: T)`: insert at the
`Err` position of `binary_search`, do nothing when found. -/
def binary_add {α : Type} [DecidableEq α] (lt : α → α → Bool) (l : List α) (x : α) : List α :=
  match binary_search lt l x with
  | Except.ok _ => l
  | Except.error pos => l.insertIdx pos x

/-- The error taxonomy of the core, abstracting the `String` errors the
source builds with `format!`:
`noTargets` is the message `"There are no more targets."` from `next_target`;
`lockFail f` is a `"Failed to ...-lock {f}"` lock-poisoning error;
`noLift p` is `"Could not respond to passenger: {p}."` from `respond`. -/
inductive LiftErr where
  | noTargets : LiftErr
  | lockFail : String → LiftErr
  | noLift : Passenger → LiftErr
deriving DecidableEq, Repr

deriving instance DecidableEq for Except

/-- The mutable state of `struct Lift` (the `RwLock` wrappers are erased;
lock failure is modelled at the building layer). -/
structure LiftState where
  id : Nat
  floor : Int
  direction : Direction
  doors_open : Bool
  passengers : List Passenger
  targets : List Int
deriving DecidableEq, Repr

/-- Mirrors `Lift::new(id)`: floor 0, `Stopped`, doors closed, no
passengers, no targets. -/
def Lift.new (id : Nat) : LiftState :=
  { id := id, floor := 0, direction := Direction.Stopped, doors_open := false,
    passengers := [], targets := [] }

/-- Mirrors `Lift::set_direction`. -/
def set_direction (s : LiftState) (d : Direction) : LiftState :=
  { s with direction := d }

/-- Mirrors `Lift::add_target`: `binary_add` the floor into the queue. -/
def add_target (s : LiftState) (target : Int) : LiftState :=
  { s with targets := binary_add intLt s.targets target }

/-- The passenger loop inside `Lift::reach_floor`: walk the passenger list in
order; a passenger whose `from_floor` is the arrived floor starts riding and
their `to_floor` is `binary_add`-ed to the target queue; a passenger who
(after that update) is riding with `to_floor` equal to the arrived floor is
dropped from the list (the source collects their indices and removes them
after the loop, which removes exactly the same passengers). -/
def board_loop (nf : Int) : List Passenger → List Int → List Passenger × List Int
  | [], targets => ([], targets)
  | p :: rest, targets =>
    let p1 := if p.from_floor = nf then { p with riding := true } else p
    let targets1 := if p.from_floor = nf then binary_add intLt targets p.to_floor else targets
    let r := board_loop nf rest targets1
    if p1.to_floor = nf ∧ p1.riding then r else (p1 :: r.1, r.2)

/-- Mirrors `Lift::reach_floor(new_floor)`: set the floor; if the floor is a
pending target remove it (by its `binary_search` index) and flag the doors;
run the boarding/alighting loop; when flagged, `open_doors` runs its two
timed dwells and leaves the doors closed again (only the net effect on
`doors_open` is modelled). -/
def reach_floor (s : LiftState) (new_floor : Int) : LiftState :=
  let to_fb : List Int × Bool :=
    match binary_search intLt s.targets new_floor with
    | Except.ok pos => (s.targets.eraseIdx pos, true)
    | Except.error _ => (s.targets, false)
  let pt := board_loop new_floor s.passengers to_fb.1
  { s with floor := new_floor, passengers := pt.1, targets := pt.2,
           doors_open := if to_fb.2 then false else s.doors_open }

/-- Mirrors `Lift::add_passenger`: `binary_add` the passenger into the
passenger list (under the derived `Ord`), then `add_target` their
`from_floor`. -/
def add_passenger (s : LiftState) (p : Passenger) : LiftState :=
  add_target { s with passengers := binary_add Passenger.lt s.passengers p } p.from_floor

/-- Mirrors `Lift::move_towards(target)`: snapshot `(floor, direction)`, set
the direction toward the target (`Up` above, `Down` below, unchanged when
equal), sleep `MS_PER_FLOOR`, then `reach_floor` one floor onward in the
direction of the snapshot taken before the update (`floor` itself when that
snapshot was `Stopped`). -/
def move_towards (s : LiftState) (target : Int) : LiftState :=
  let floor := s.floor
  let direction := s.direction
  let s1 := if target > floor then set_direction s Direction.Up
            else if target < floor then set_direction s Direction.Down
            else s
  match direction with
  | Direction.Up => reach_floor s1 (floor + 1)
  | Direction.Down => reach_floor s1 (floor - 1)
  | Direction.Stopped => reach_floor s1 floor

/-- Mirrors `Lift::next_target`: error on an empty queue; otherwise
`binary_search` the current floor.  When found, possibly flip the direction
(the `Up` arm tests the found index against `targets.len()`) and return the
floor; when absent at insertion position `pos`, reverse at either end of the
queue or continue in the current direction.  Returns the chosen floor
together with the (possibly direction-updated) state. -/
def next_target (s : LiftState) : Except LiftErr (Int × LiftState) :=
  if s.targets.isEmpty then Except.error LiftErr.noTargets
  else
    let floor := s.floor
    let direction := s.direction
    match binary_search intLt s.targets floor with
    | Except.ok x =>
      let s1 := if direction = Direction.Down ∧ x = 0 then set_direction s Direction.Up
                else if direction = Direction.Up ∧ x = s.targets.length then
                  set_direction s Direction.Down
                else s
      Except.ok (s.targets.getD x 0, s1)
    | Except.error pos =>
      if pos = s.targets.length then
        Except.ok (s.targets.getD (pos - 1) 0, set_direction s Direction.Down)
      else if pos = 0 then
        Except.ok (s.targets.getD 0 0, set_direction s Direction.Up)
      else if direction = Direction.Up then
        Except.ok (s.targets.getD pos 0, s)
      else
        Except.ok (s.targets.getD (pos - 1) 0, s)

/-- Mirrors `fn difference(x: i32, y: i32) -> i32`. -/
def difference (x y : Int) : Int :=
  if x > y then x - y else y - x

/-- The passenger's travel direction as computed inside
`Lift::distance_from`: `Up` when `to_floor > from_floor`, otherwise `Down`. -/
def Passenger.p_dir (p : Passenger) : Direction :=
  if p.to_floor > p.from_floor then Direction.Up else Direction.Down

/-- Mirrors `Lift::distance_from(passenger)`: the estimated distance to
serve the passenger.  Stopped or no targets: direct distance.  Travelling the
passenger's way and yet to pass their floor: direct distance.  Otherwise:
distance to the lift's extreme target in its direction (`targets[len-1]`
going `Up`, `targets[0]` going `Down`) plus that target's distance to the
passenger's floor. -/
def distance_from (s : LiftState) (p : Passenger) : Int :=
  let p_floor := p.from_floor
  let p_dir := p.p_dir
  let l_floor := s.floor
  let l_dir := s.direction
  if l_dir = Direction.Stopped ∨ s.targets.isEmpty then difference l_floor p_floor
  else if (l_dir = Direction.Down ∧ p_dir = Direction.Down ∧ l_floor > p_floor)
        ∨ (l_dir = Direction.Up ∧ p_dir = Direction.Up ∧ l_floor < p_floor) then
    difference l_floor p_floor
  else
    let last_target := if l_dir = Direction.Up then s.targets.getD (s.targets.length - 1) 0
                       else s.targets.getD 0 0
    difference l_floor last_target + difference last_target p_floor

/-- The sentinel `i32::MAX` that `best_lift` starts its running minimum at. -/
def i32Max : Int := 2147483647

/-- A lift as the building sees it: its state plus whether its `RwLock`s can
be acquired (`readable = false` models poisoned locks, the only error path
of the field accessors). -/
structure MLift where
  state : LiftState
  readable : Bool
deriving DecidableEq, Repr

/-- `Lift::distance_from` at the building layer: fails with the lock error
when the lift's state cannot be read. -/
def distance_fromM (l : MLift) (p : Passenger) : Except LiftErr Int :=
  if l.readable then Except.ok (distance_from l.state p)
  else Except.error (LiftErr.lockFail "floor")

/-- `Lift::add_passenger` at the building layer: fails with the lock error
when the lift's state cannot be acquired. -/
def add_passengerM (l : MLift) (p : Passenger) : Except LiftErr MLift :=
  if l.readable then Except.ok { l with state := add_passenger l.state p }
  else Except.error (LiftErr.lockFail "passengers")

/-- The loop body of `Building::best_lift`: evaluate lift `index` and keep
it as the running best when its estimate is strictly below the running
minimum; skip it when its state cannot be read. -/
def best_step (lifts : List MLift) (p : Passenger) (acc : Nat × Int) (index : Nat) :
    Nat × Int :=
  match lifts.get? index with
  | some lift =>
    match distance_fromM lift p with
    | Except.ok dist => if dist < acc.2 then (index, dist) else acc
    | Except.error _ => acc
  | none => acc

/-- Mirrors `Building::best_lift`: fold the loop body over the (shuffled)
index order starting from `best = 0`, `closest = i32::MAX`, and return
`Ok(best)` unconditionally.  The shuffled order is passed in explicitly. -/
def best_lift (lifts : List MLift) (p : Passenger) (order : List Nat) : Except LiftErr Nat :=
  Except.ok (order.foldl (best_step lifts p) (0, i32Max)).1

/-- Mirrors `Building::respond`: ask `best_lift` for an index, then
`add_passenger` on `self.lifts[index]` (propagating its error), returning the
index.  Only when `best_lift` fails does `respond` build the
`NoLiftAvailable` error.  `none` models the panic of the vector indexing
`self.lifts[index]` when the index is out of bounds. -/
def respond (lifts : List MLift) (p : Passenger) (order : List Nat) :
    Option (Except LiftErr (Nat × List MLift)) :=
  match best_lift lifts p order with
  | Except.ok index =>
    match lifts.get? index with
    | none => none
    | some lift =>
      match add_passengerM lift p with
      | Except.ok lift2 => some (Except.ok (index, lifts.set index lift2))
      | Except.error e => some (Except.error e)
  | Except.error _ => some (Except.error (LiftErr.noLift p))

/-- The estimate `best_lift` sees for index `j`: `none` when the index is out
of range or the lift unreadable, otherwise its `distance_from` value. -/
def distanceOf (lifts : List MLift) (p : Passenger) (j : Nat) : Option Int :=
  match lifts.get? j with
  | some lift => if lift.readable then some (distance_from lift.state p) else none
  | none => none

/-- Boolean test that option estimate `o` is beaten by `d0` (an unreadable
lift beats nothing). -/
def beatsB (d0 : Int) (o : Option Int) : Bool :=
  match o with
  | some d => d0 < d
  | none => true

/-- Boolean test that a `respond` result is a successful dispatch. -/
def isOkResponse (r : Option (Except LiftErr (Nat × List MLift))) : Bool :=
  match r with
  | some (Except.ok _) => true
  | _ => false

/-! Helper lemmas about `binary_search` / `binary_add`. -/

theorem length_takeWhile_le {α : Type} (q : α → Bool) (l : List α) :
    (l.takeWhile q).length ≤ l.length :=
  List.Sublist.length_le (List.takeWhile_sublist q)

theorem binary_add_of_mem {α : Type} [DecidableEq α] (lt : α → α → Bool) {l : List α} {x : α}
    (h : x ∈ l) : binary_add lt l x = l := by
  simp [binary_add, binary_search, h]

theorem binary_add_of_not_mem {α : Type} [DecidableEq α] (lt : α → α → Bool) {l : List α}
    {x : α} (h : x ∉ l) :
    binary_add lt l x = l.insertIdx (l.takeWhile (fun y => lt y x)).length x := by
  simp [binary_add, binary_search, h]

theorem mem_binary_add_self {α : Type} [DecidableEq α] (lt : α → α → Bool) (l : List α)
    (x : α) : x ∈ binary_add lt l x := by
  by_cases h : x ∈ l
  · rw [binary_add_of_mem lt h]; exact h
  · rw [binary_add_of_not_mem lt h]
    exact (List.mem_insertIdx (length_takeWhile_le _ l)).2 (Or.inl rfl)

theorem mem_binary_add_of_mem {α : Type} [DecidableEq α] (lt : α → α → Bool) {l : List α}
    {y : α} (x : α) (h : y ∈ l) : y ∈ binary_add lt l x := by
  by_cases hx : x ∈ l
  · rw [binary_add_of_mem lt hx]; exact h
  · rw [binary_add_of_not_mem lt hx]
    exact (List.mem_insertIdx (length_takeWhile_le _ l)).2 (Or.inr h)

theorem sorted_insert_pos :
    ∀ (l : List Int) (x : Int), List.Sorted (· < ·) l → x ∉ l →
      List.Sorted (· < ·) (l.insertIdx (l.takeWhile (fun y => intLt y x)).length x)
  | [], x, _, _ => List.sorted_singleton x
  | y :: ys, x, hs, hx => by
    rw [List.sorted_cons] at hs
    obtain ⟨hy, hs'⟩ := hs
    have hxy : x ≠ y := fun h => hx (h ▸ List.mem_cons_self y ys)
    have hxys : x ∉ ys := fun h => hx (List.mem_cons_of_mem y h)
    by_cases hlt : y < x
    · have ht : (y :: ys).takeWhile (fun z => intLt z x) =
          y :: ys.takeWhile (fun z => intLt z x) := by
        simp [List.takeWhile_cons, intLt, hlt]
      rw [ht, List.length_cons, List.insertIdx_succ_cons, List.sorted_cons]
      refine ⟨fun b hb => ?_, sorted_insert_pos ys x hs' hxys⟩
      rcases (List.mem_insertIdx (length_takeWhile_le _ ys)).1 hb with hbx | hbm
      · exact hbx ▸ hlt
      · exact hy b hbm
    · have ht : (y :: ys).takeWhile (fun z => intLt z x) = [] := by
        simp [List.takeWhile_cons, intLt, hlt]
      rw [ht, List.length_nil, List.insertIdx_zero, List.sorted_cons]
      have hxy' : x < y := lt_of_le_of_ne (not_lt.1 hlt) hxy
      refine ⟨fun b hb => ?_, List.sorted_cons.2 ⟨hy, hs'⟩⟩
      rcases List.mem_cons.1 hb with hby | hbm
      · exact hby ▸ hxy'
      · exact lt_trans hxy' (hy b hbm)

theorem sorted_binary_add {l : List Int} (x : Int) (hs : List.Sorted (· < ·) l) :
    List.Sorted (· < ·) (binary_add intLt l x) := by
  by_cases h : x ∈ l
  · rw [binary_add_of_mem intLt h]; exact hs
  · rw [binary_add_of_not_mem intLt h]; exact sorted_insert_pos l x hs h

theorem get_search_pos :
    ∀ (l : List Int) (x : Int), List.Sorted (· < ·) l → x ∈ l →
      l.get? (l.takeWhile (fun y => intLt y x)).length = some x
  | [], x, _, hx => absurd hx (List.not_mem_nil x)
  | y :: ys, x, hs, hx => by
    rw [List.sorted_cons] at hs
    obtain ⟨hy, hs'⟩ := hs
    by_cases hlt : y < x
    · have hxy : x ≠ y := fun h => absurd (h ▸ hlt) (lt_irrefl x)
      have hxys : x ∈ ys := (List.mem_cons.1 hx).resolve_left hxy
      have ht : (y :: ys).takeWhile (fun z => intLt z x) =
          y :: ys.takeWhile (fun z => intLt z x) := by
        simp [List.takeWhile_cons, intLt, hlt]
      rw [ht, List.length_cons, List.get?_cons_succ]
      exact get_search_pos ys x hs' hxys
    · have ht : (y :: ys).takeWhile (fun z => intLt z x) = [] := by
        simp [List.takeWhile_cons, intLt, hlt]
      rw [ht, List.length_nil, List.get?_cons_zero]
      rcases List.mem_cons.1 hx with hxy | hxys
      · exact congrArg some hxy.symm
      · exact absurd (hy x hxys) hlt

theorem mem_eraseIdx_of_ne :
    ∀ (l : List Int) (pos : Nat) (x y : Int), l.get? pos = some x → y ∈ l → y ≠ x →
      y ∈ l.eraseIdx pos
  | [], _, _, y, _, hy, _ => absurd hy (List.not_mem_nil y)
  | z :: zs, 0, x, y, hget, hy, hne => by
    rw [List.get?_cons_zero, Option.some_inj] at hget
    rcases List.mem_cons.1 hy with hyz | hym
    · exact absurd (hyz.trans hget) hne
    · simpa [List.eraseIdx] using hym
  | z :: zs, pos + 1, x, y, hget, hy, hne => by
    rw [List.get?_cons_succ] at hget
    rcases List.mem_cons.1 hy with hyz | hym
    · simp [List.eraseIdx, hyz]
    · simpa [List.eraseIdx] using Or.inr (mem_eraseIdx_of_ne zs pos x y hget hym hne)

theorem sorted_eraseIdx {l : List Int} (pos : Nat) (hs : List.Sorted (· < ·) l) :
    List.Sorted (· < ·) (l.eraseIdx pos) :=
  hs.sublist (List.eraseIdx_sublist l pos)

/-- The target queues reachable in a lift: starting empty, grown only by
`binary_add` (`Lift::add_target`) and shrunk only by removing the index of a
successful `binary_search` (`Lift::reach_floor`). -/
inductive ReachableQueue : List Int → Prop where
  | init : ReachableQueue []
  | add (l : List Int) (x : Int) : ReachableQueue l → ReachableQueue (binary_add intLt l x)
  | remove (l : List Int) (x : Int) (pos : Nat) : ReachableQueue l →
      binary_search intLt l x = Except.ok pos → ReachableQueue (l.eraseIdx pos)

/-- C6: every target queue reachable by any sequence of `add_target`
insertions and `reach_floor` removals is strictly ascending with no
duplicate floors, and inserting an already-present floor leaves the queue
unchanged. -/
theorem queue_sorted_nodup_idem (l : List Int) (h : ReachableQueue l) :
    List.Sorted (· < ·) l ∧ l.Nodup ∧ ∀ x ∈ l, binary_add intLt l x = l := by
  have hs : List.Sorted (· < ·) l := by
    induction h with
    | init => exact List.sorted_nil
    | add l x _ ih => exact sorted_binary_add x ih
    | remove l x pos _ _ ih => exact sorted_eraseIdx pos ih
  exact ⟨hs, hs.nodup, fun x hx => binary_add_of_mem intLt hx⟩

/-- Witness for C6: a concretely reachable queue is sorted, duplicate-free,
and re-inserting its element is a no-op. -/
theorem queue_sorted_nodup_idem_witness :
    List.Sorted (· < ·) (binary_add intLt [] 4) ∧ (binary_add intLt [] 4).Nodup ∧
      binary_add intLt (binary_add intLt [] 4) 4 = binary_add intLt [] 4 :=
  ⟨(queue_sorted_nodup_idem _ (ReachableQueue.add [] 4 ReachableQueue.init)).1,
   (queue_sorted_nodup_idem _ (ReachableQueue.add [] 4 ReachableQueue.init)).2.1,
   (queue_sorted_nodup_idem _ (ReachableQueue.add [] 4 ReachableQueue.init)).2.2 4
     (mem_binary_add_self intLt [] 4)⟩

/-- C8: on an empty target queue `next_target` fails with the `NoTargets`
error, returning no floor and no updated state. -/
theorem next_target_empty (s : LiftState) (h : s.targets = []) :
    next_target s = Except.error LiftErr.noTargets := by
  simp [next_target, h]

/-- Witness for C8 at the freshly constructed lift. -/
theorem next_target_empty_witness :
    next_target (Lift.new 0) = Except.error LiftErr.noTargets :=
  next_target_empty (Lift.new 0) rfl

/-- C1 (failing input): a lift on floor 5 moving `Up` whose queue is
`[2, 5]` — the current floor is the last (extreme-most) element in the `Up`
direction.  `next_target` returns floor 5 but leaves the direction `Up`: the
flip guard in the `Ok` arm compares the found index (here 1) against
`targets.len()` (here 2), a test no successful `binary_search` can satisfy,
so the `Up`-side flip never happens. -/
theorem next_target_up_at_last_no_flip :
    next_target { id := 0, floor := 5, direction := Direction.Up, doors_open := false,
                  passengers := [], targets := [2, 5] } =
      Except.ok (5, { id := 0, floor := 5, direction := Direction.Up, doors_open := false,
                      passengers := [], targets := [2, 5] }) := by
  decide

/-- C2 (counterexample): a stopped lift on floor 0 told to move towards
floor 5 does not reach the adjacent floor 1 — it stays on floor 0, because
the movement `match` uses the direction snapshot taken before the update. -/
theorem move_towards_counterexample :
    (Lift.new 0).floor < 5 ∧ (move_towards (Lift.new 0) 5).floor = (Lift.new 0).floor := by
  decide

theorem reach_floor_floor (s : LiftState) (nf : Int) : (reach_floor s nf).floor = nf := rfl

theorem reach_floor_direction (s : LiftState) (nf : Int) :
    (reach_floor s nf).direction = s.direction := rfl

/-- C2 (amended): `move_towards(target)` sets the direction to `Up` when the
target is above the current floor and `Down` when below (unchanged when
equal), and after the travel pause the lift arrives one floor onward in the
direction it had before this update — `floor + 1` when it was moving `Up`,
`floor - 1` when moving `Down`, and the same floor when it was `Stopped` —
independently of where the target lies. -/
theorem move_towards_behavior (s : LiftState) (t : Int) :
    (move_towards s t).direction =
      (if t > s.floor then Direction.Up
       else if t < s.floor then Direction.Down else s.direction) ∧
    (move_towards s t).floor =
      s.floor + (match s.direction with
                 | Direction.Up => 1
                 | Direction.Down => -1
                 | Direction.Stopped => 0) := by
  cases hd : s.direction <;>
    · constructor
      · rw [move_towards]
        simp only [hd, reach_floor_direction]
        split_ifs <;> simp [set_direction, hd]
      · rw [move_towards]
        simp only [hd, reach_floor_floor]
        try omega

theorem head?_getD {l : List Int} {a : Int} (h : l.head? = some a) : l.getD 0 0 = a := by
  cases l with
  | nil => simp at h
  | cons x xs => simpa [List.getD] using Option.some_inj.1 h

theorem getLast?_getD {l : List Int} {a : Int} (h : l.getLast? = some a) :
    l.getD (l.length - 1) 0 = a := by
  rw [List.getD_eq_getD_get? l 0 (l.length - 1), List.get?_eq_getElem?,
    ← List.getLast?_eq_getElem? l, h]
  rfl

/-- C3: `distance_from` computes the dispatch estimate exactly as specified:
a stopped or target-less lift yields the absolute floor difference; a lift
sweeping the passenger's way that has not yet passed their floor also yields
the absolute floor difference; any other lift pays the distance to its
extreme target in its direction of travel (the last target going `Up`, the
first going `Down`) plus the distance from that target to the passenger. -/
theorem distance_from_cases (s : LiftState) (p : Passenger) :
    (s.direction = Direction.Stopped ∨ s.targets = [] →
       distance_from s p = difference s.floor p.from_floor) ∧
    (s.direction ≠ Direction.Stopped → s.targets ≠ [] →
       (s.direction = Direction.Down ∧ p.p_dir = Direction.Down ∧ s.floor > p.from_floor) ∨
         (s.direction = Direction.Up ∧ p.p_dir = Direction.Up ∧ s.floor < p.from_floor) →
       distance_from s p = difference s.floor p.from_floor) ∧
    (s.direction ≠ Direction.Stopped → s.targets ≠ [] →
       ¬((s.direction = Direction.Down ∧ p.p_dir = Direction.Down ∧ s.floor > p.from_floor) ∨
          (s.direction = Direction.Up ∧ p.p_dir = Direction.Up ∧ s.floor < p.from_floor)) →
       ∀ tgt, (if s.direction = Direction.Up then s.targets.getLast?
               else s.targets.head?) = some tgt →
         distance_from s p = difference s.floor tgt + difference tgt p.from_floor) := by
  refine ⟨fun h => ?_, fun h1 h2 h3 => ?_, fun h1 h2 h3 tgt htgt => ?_⟩
  · have hc : s.direction = Direction.Stopped ∨ s.targets.isEmpty = true := by
      rcases h with h | h
      · exact Or.inl h
      · exact Or.inr (by simp [h])
    simp only [distance_from]
    rw [if_pos hc]
  · have hc : ¬(s.direction = Direction.Stopped ∨ s.targets.isEmpty = true) := by
      rintro (h | h)
      · exact h1 h
      · exact h2 (List.isEmpty_iff.1 h)
    simp only [distance_from]
    rw [if_neg hc, if_pos h3]
  · have hc : ¬(s.direction = Direction.Stopped ∨ s.targets.isEmpty = true) := by
      rintro (h | h)
      · exact h1 h
      · exact h2 (List.isEmpty_iff.1 h)
    simp only [distance_from]
    rw [if_neg hc, if_neg h3]
    by_cases hu : s.direction = Direction.Up
    · rw [if_pos hu] at htgt
      rw [if_pos hu, getLast?_getD htgt]
    · rw [if_neg hu] at htgt
      rw [if_neg hu, head?_getD htgt]

/-- Witness for C3: the three estimate shapes at concrete lifts — a stopped
lift, a lift sweeping down past the passenger, and a lift moving up that
must first finish its sweep at target 8. -/
theorem distance_from_cases_witness :
    distance_from { id := 0, floor := 4, direction := Direction.Stopped, doors_open := false,
                    passengers := [], targets := [] } (Passenger.new 7 2) = difference 4 7 ∧
    distance_from { id := 0, floor := 5, direction := Direction.Down, doors_open := false,
                    passengers := [], targets := [1] } (Passenger.new 3 1) = difference 5 3 ∧
    distance_from { id := 0, floor := 5, direction := Direction.Up, doors_open := false,
                    passengers := [], targets := [2, 8] } (Passenger.new 1 0) =
      difference 5 8 + difference 8 1 :=
  ⟨(distance_from_cases _ _).1 (Or.inl rfl),
   (distance_from_cases _ _).2.1 (by decide) (by decide) (by decide),
   (distance_from_cases _ _).2.2 (by decide) (by decide) (by decide) 8 (by decide)⟩

/-- C5: with a single fresh lift (floor 0, `Stopped`, empty queue and
passenger set), `respond` on `Passenger::new(7, 2)` returns that lift's
index 0, and afterwards floor 7 is in the lift's target queue and the
passenger sits in its passenger set with `riding = false`. -/
theorem respond_dispatch_example :
    respond [{ state := Lift.new 0, readable := true }] (Passenger.new 7 2) [0] =
      some (Except.ok (0, [{ state := add_passenger (Lift.new 0) (Passenger.new 7 2),
                             readable := true }])) ∧
    7 ∈ (add_passenger (Lift.new 0) (Passenger.new 7 2)).targets ∧
    Passenger.new 7 2 ∈ (add_passenger (Lift.new 0) (Passenger.new 7 2)).passengers ∧
    (Passenger.new 7 2).riding = false := by
  decide

theorem best_step_distanceOf (lifts : List MLift) (p : Passenger) (acc : Nat × Int)
    (j : Nat) :
    best_step lifts p acc j =
      match distanceOf lifts p j with
      | some d => if d < acc.2 then (j, d) else acc
      | none => acc := by
  rcases hg : lifts[j]? with _ | lift
  · simp [best_step, distanceOf, hg]
  · by_cases hr : lift.readable
    · simp [best_step, distanceOf, distance_fromM, hg, hr]
    · simp [best_step, distanceOf, distance_fromM, hg, hr]

theorem fold_locks_on_min (lifts : List MLift) (p : Passenger) (i0 : Nat) (d0 : Int)
    (hd0 : distanceOf lifts p i0 = some d0) :
    ∀ (order : List Nat) (acc : Nat × Int),
      (∀ j ∈ order, j ≠ i0 → beatsB d0 (distanceOf lifts p j) = true) →
      (acc = (i0, d0) ∨ (d0 < acc.2 ∧ i0 ∈ order)) →
      order.foldl (best_step lifts p) acc = (i0, d0)
  | [], acc, _, hacc => by
    rcases hacc with h | ⟨_, h⟩
    · simpa using h
    · exact absurd h (List.not_mem_nil i0)
  | j :: rest, acc, hbeats, hacc => by
    rw [List.foldl_cons]
    have hbr : ∀ k ∈ rest, k ≠ i0 → beatsB d0 (distanceOf lifts p k) = true :=
      fun k hk => hbeats k (List.mem_cons_of_mem j hk)
    rcases hacc with hacc | ⟨hlt, hmem⟩
    · have hstep : best_step lifts p acc j = acc := by
        rw [best_step_distanceOf]
        cases hdj : distanceOf lifts p j with
        | none => rfl
        | some d =>
          by_cases hji : j = i0
          · have : d = d0 := by
              rw [hji, hd0] at hdj
              exact Option.some_inj.1 hdj.symm
            rw [hacc, this]
            simp
          · have hb := hbeats j (List.mem_cons_self j rest) hji
            rw [hdj] at hb
            have : d0 < d := by simpa [beatsB] using hb
            rw [hacc]
            simp only []
            rw [if_neg (by simpa using not_lt.2 (le_of_lt this))]
      rw [hstep]
      exact fold_locks_on_min lifts p i0 d0 hd0 rest acc hbr (Or.inl hacc)
    · by_cases hji : j = i0
      · have hstep : best_step lifts p acc j = (i0, d0) := by
          rw [best_step_distanceOf, hji, hd0]
          simp only []
          rw [if_pos hlt]
        rw [hstep]
        exact fold_locks_on_min lifts p i0 d0 hd0 rest (i0, d0) hbr (Or.inl rfl)
      · have hmem' : i0 ∈ rest := (List.mem_cons.1 hmem).resolve_left fun h => hji h.symm
        have hb := hbeats j (List.mem_cons_self j rest) hji
        rw [best_step_distanceOf]
        cases hdj : distanceOf lifts p j with
        | none =>
          exact fold_locks_on_min lifts p i0 d0 hd0 rest acc hbr (Or.inr ⟨hlt, hmem'⟩)
        | some d =>
          rw [hdj] at hb
          have hdd : d0 < d := by simpa [beatsB] using hb
          show List.foldl (best_step lifts p) (if d < acc.2 then (j, d) else acc) rest =
            (i0, d0)
          by_cases hcl : d < acc.2
          · rw [if_pos hcl]
            exact fold_locks_on_min lifts p i0 d0 hd0 rest (j, d) hbr (Or.inr ⟨hdd, hmem'⟩)
          · rw [if_neg hcl]
            exact fold_locks_on_min lifts p i0 d0 hd0 rest acc hbr (Or.inr ⟨hlt, hmem'⟩)

/-- C4: `best_lift` returns the index of the lift whose estimate is strictly
below every other evaluable lift's estimate, for any evaluation order that
covers that index — the randomized shuffle cannot change the selection when
the estimates are unequal.  (The winning estimate must lie below the
`i32::MAX` sentinel the running minimum starts at.) -/
theorem best_lift_min (lifts : List MLift) (p : Passenger) (order : List Nat) (i0 : Nat)
    (d0 : Int) (h1 : i0 ∈ order) (h2 : distanceOf lifts p i0 = some d0) (h3 : d0 < i32Max)
    (h4 : ∀ j ∈ order, j ≠ i0 → beatsB d0 (distanceOf lifts p j) = true) :
    best_lift lifts p order = Except.ok i0 := by
  rw [best_lift, fold_locks_on_min lifts p i0 d0 h2 order (0, i32Max) h4 (Or.inr ⟨h3, h1⟩)]

/-- Witness for C4: two idle lifts on floors 0 and 10 and a pickup request
at floor 9 — the lift on floor 10 (estimate 1 against 9) is selected. -/
theorem best_lift_min_witness :
    best_lift [{ state := Lift.new 0, readable := true },
               { state := { Lift.new 1 with floor := 10 }, readable := true }]
      (Passenger.new 9 0) [0, 1] = Except.ok 1 :=
  best_lift_min _ _ _ 1 1 (by decide) (by decide) (by decide) (by decide)

/-- Invariant of the `best_lift` fold: once the running minimum has dropped
below the `i32::MAX` sentinel, the running best index points at an evaluable
lift whose estimate bounds the running minimum. -/
def Rinv (lifts : List MLift) (p : Passenger) (acc : Nat × Int) : Prop :=
  ∃ d, distanceOf lifts p acc.1 = some d ∧ d ≤ acc.2 ∧ acc.2 < i32Max

theorem step_R {lifts : List MLift} {p : Passenger} {acc : Nat × Int} (j : Nat)
    (h : Rinv lifts p acc) : Rinv lifts p (best_step lifts p acc j) := by
  obtain ⟨d, hd, hdle, hlt⟩ := h
  rw [best_step_distanceOf]
  cases hdj : distanceOf lifts p j with
  | none => exact ⟨d, hd, hdle, hlt⟩
  | some e =>
    show Rinv lifts p (if e < acc.2 then (j, e) else acc)
    by_cases he : e < acc.2
    · rw [if_pos he]
      exact ⟨e, hdj, le_refl e, lt_of_lt_of_le hlt (le_refl _) |> fun _ => lt_trans he hlt⟩
    · rw [if_neg he]
      exact ⟨d, hd, hdle, hlt⟩

theorem fold_R {lifts : List MLift} {p : Passenger} :
    ∀ (order : List Nat) (acc : Nat × Int), Rinv lifts p acc →
      Rinv lifts p (order.foldl (best_step lifts p) acc)
  | [], _, h => h
  | j :: rest, acc, h => by
    rw [List.foldl_cons]
    exact fold_R rest _ (step_R j h)

theorem fold_hit {lifts : List MLift} {p : Passenger} {i0 : Nat} {d0 : Int}
    (h2 : distanceOf lifts p i0 = some d0) (h3 : d0 < i32Max) :
    ∀ (order : List Nat) (acc : Nat × Int), i0 ∈ order →
      (acc = (0, i32Max) ∨ Rinv lifts p acc) →
      Rinv lifts p (order.foldl (best_step lifts p) acc)
  | [], _, h1, _ => absurd h1 (List.not_mem_nil i0)
  | j :: rest, acc, h1, hS => by
    rw [List.foldl_cons]
    by_cases hji : j = i0
    · have hR : Rinv lifts p (best_step lifts p acc j) := by
        rcases hS with hS | hS
        · rw [hS, best_step_distanceOf, hji, h2]
          show Rinv lifts p (if d0 < (0, i32Max).2 then (i0, d0) else (0, i32Max))
          rw [if_pos h3]
          exact ⟨d0, h2, le_refl d0, h3⟩
        · exact step_R j hS
      exact fold_R rest _ hR
    · have h1' : i0 ∈ rest := (List.mem_cons.1 h1).resolve_left fun h => hji h.symm
      have hS' : best_step lifts p acc j = (0, i32Max) ∨ Rinv lifts p (best_step lifts p acc j) := by
        rcases hS with hS | hS
        · rw [hS, best_step_distanceOf]
          cases hdj : distanceOf lifts p j with
          | none => exact Or.inl rfl
          | some e =>
            show (if e < (0, i32Max).2 then (j, e) else (0, i32Max)) = (0, i32Max) ∨
              Rinv lifts p (if e < (0, i32Max).2 then (j, e) else (0, i32Max))
            by_cases he : e < i32Max
            · rw [if_pos he]
              exact Or.inr ⟨e, hdj, le_refl e, he⟩
            · rw [if_neg he]
              exact Or.inl rfl
        · exact Or.inr (step_R j hS)
      exact fold_hit h2 h3 rest _ h1' hS'

/-- C9 (amended): `respond` never fails with the `NoLiftAvailable` error —
`best_lift` returns `Ok` unconditionally, so that branch is unreachable —
and whenever the evaluation order contains a lift whose state can be read
and whose estimate is below the `i32::MAX` sentinel, `respond` succeeds and
the selected index is one whose lift could be evaluated. -/
theorem respond_eq (lifts : List MLift) (p : Passenger) (order : List Nat) :
    respond lifts p order =
      match lifts.get? ((order.foldl (best_step lifts p) (0, i32Max)).1) with
      | none => none
      | some lift =>
        match add_passengerM lift p with
        | Except.ok lift2 =>
          some (Except.ok ((order.foldl (best_step lifts p) (0, i32Max)).1,
            lifts.set ((order.foldl (best_step lifts p) (0, i32Max)).1) lift2))
        | Except.error e => some (Except.error e) := rfl

theorem distanceOf_eq (lifts : List MLift) (p : Passenger) (j : Nat) :
    distanceOf lifts p j =
      (lifts.get? j).bind
        (fun lift => if lift.readable then some (distance_from lift.state p) else none) := by
  rw [distanceOf]
  cases lifts.get? j <;> rfl

theorem respond_selects (lifts : List MLift) (p : Passenger) (order : List Nat) :
    (∀ q, respond lifts p order ≠ some (Except.error (LiftErr.noLift q))) ∧
    (∀ i0 d0, i0 ∈ order → distanceOf lifts p i0 = some d0 → d0 < i32Max →
      isOkResponse (respond lifts p order) = true ∧
      (distanceOf lifts p (order.foldl (best_step lifts p) (0, i32Max)).1).isSome = true) := by
  constructor
  · intro q h
    rw [respond_eq] at h
    rcases hg : lifts.get? ((order.foldl (best_step lifts p) (0, i32Max)).1) with _ | lift
    · rw [hg] at h
      simp at h
    · rw [hg] at h
      simp only [add_passengerM] at h
      by_cases hr : lift.readable
      · rw [if_pos hr] at h
        simp at h
      · rw [if_neg hr] at h
        simp at h
  · intro i0 d0 h1 h2 h3
    have hR := fold_hit h2 h3 order (0, i32Max) h1 (Or.inl rfl)
    obtain ⟨d, hd, _, _⟩ := hR
    refine ⟨?_, by rw [hd]; rfl⟩
    rw [distanceOf_eq] at hd
    rcases hg : lifts.get? ((order.foldl (best_step lifts p) (0, i32Max)).1) with _ | lift
    · rw [hg] at hd
      cases hd
    · rw [hg, Option.some_bind] at hd
      by_cases hr : lift.readable
      · rw [respond_eq, hg]
        simp only [add_passengerM]
        rw [if_pos hr]
        rfl
      · rw [if_neg hr] at hd
        cases hd

/-- Witness for C9: a single readable stopped lift on floor 0 with a
request from floor 3 is dispatched successfully. -/
theorem respond_selects_witness :
    isOkResponse (respond [{ state := Lift.new 0, readable := true }]
      (Passenger.new 3 0) [0]) = true :=
  ((respond_selects [{ state := Lift.new 0, readable := true }] (Passenger.new 3 0) [0]).2
    0 3 (by decide) (by decide) (by decide)).1

/-- C9 (counterexample): a building whose only lift is unreadable — the
claim says `respond` then fails with `NoLiftAvailable`, but it fails with
the lock error propagated out of `add_passenger` on the defaulted index 0
(the `NoLiftAvailable` branch is unreachable because `best_lift` always
returns `Ok`). -/
theorem respond_all_unreadable_not_noLift :
    respond [{ state := Lift.new 0, readable := false }] (Passenger.new 1 2) [0] =
      some (Except.error (LiftErr.lockFail "passengers")) ∧
    LiftErr.lockFail "passengers" ≠ LiftErr.noLift (Passenger.new 1 2) := by
  decide

theorem fold_id_of_none {lifts : List MLift} {p : Passenger} :
    ∀ (order : List Nat) (acc : Nat × Int), (∀ j ∈ order, distanceOf lifts p j = none) →
      order.foldl (best_step lifts p) acc = acc
  | [], _, _ => rfl
  | j :: rest, acc, h => by
    rw [List.foldl_cons, best_step_distanceOf, h j (List.mem_cons_self j rest)]
    exact fold_id_of_none rest acc fun k hk => h k (List.mem_cons_of_mem j hk)

theorem fold_index_bound {lifts : List MLift} {p : Passenger} :
    ∀ (order : List Nat) (acc : Nat × Int), (∀ j ∈ order, j < lifts.length) →
      acc.1 < lifts.length → (order.foldl (best_step lifts p) acc).1 < lifts.length
  | [], _, _, hacc => hacc
  | j :: rest, acc, h, hacc => by
    rw [List.foldl_cons]
    refine fold_index_bound rest _ (fun k hk => h k (List.mem_cons_of_mem j hk)) ?_
    rw [best_step_distanceOf]
    cases hdj : distanceOf lifts p j with
    | none => exact hacc
    | some d =>
      show (if d < acc.2 then (j, d) else acc).1 < lifts.length
      by_cases hd : d < acc.2
      · rw [if_pos hd]
        exact h j (List.mem_cons_self j rest)
      · rw [if_neg hd]
        exact hacc

/-- C10: `best_lift` always returns `Ok`; when no lift at all can be
evaluated it returns index 0; when the building has at least one lift (and
the evaluation order stays in range, as the source's `0..lifts.len()`
shuffle does) the returned index is in bounds, so the `self.lifts[index]`
indexing inside `respond` succeeds; with zero lifts that indexing is out of
bounds (`respond` hits the vector-indexing panic, modelled as `none`). -/
theorem best_lift_total_bounds (lifts : List MLift) (p : Passenger) (order : List Nat) :
    (∃ i, best_lift lifts p order = Except.ok i) ∧
    ((∀ j ∈ order, distanceOf lifts p j = none) → best_lift lifts p order = Except.ok 0) ∧
    ((∀ j ∈ order, j < lifts.length) → lifts ≠ [] →
       (order.foldl (best_step lifts p) (0, i32Max)).1 < lifts.length ∧
       (respond lifts p order).isSome = true) ∧
    (lifts = [] → respond lifts p order = none) := by
  refine ⟨⟨(order.foldl (best_step lifts p) (0, i32Max)).1, rfl⟩, fun h => ?_, fun hb hne => ?_,
    fun h => ?_⟩
  · rw [best_lift, fold_id_of_none order _ h]
  · have hlen : (0 : Nat) < lifts.length := List.length_pos.2 hne
    have hbound := @fold_index_bound lifts p order (0, i32Max) hb hlen
    refine ⟨hbound, ?_⟩
    rw [respond_eq]
    rcases hg : lifts.get? ((order.foldl (best_step lifts p) (0, i32Max)).1) with _ | lift
    · exact absurd hbound (by simpa using (List.get?_eq_none.1 (by simpa using hg)))
    · cases hpm : add_passengerM lift p <;> simp [hpm]
  · subst h
    rw [respond_eq]
    have : ([] : List MLift).get? ((order.foldl (best_step [] p) (0, i32Max)).1) = none := by
      cases (order.foldl (best_step [] p) (0, i32Max)).1 <;> rfl
    rw [this]

/-- Witness for C10: an all-unreadable single-lift building still yields
index 0; a readable single-lift building dispatches successfully; the empty
building's `respond` hits the out-of-bounds indexing. -/
theorem best_lift_total_bounds_witness :
    best_lift [{ state := Lift.new 0, readable := false }] (Passenger.new 1 2) [0] =
      Except.ok 0 ∧
    (respond [{ state := Lift.new 0, readable := true }] (Passenger.new 1 2) [0]).isSome =
      true ∧
    respond ([] : List MLift) (Passenger.new 1 2) [0] = none :=
  ⟨(best_lift_total_bounds [{ state := Lift.new 0, readable := false }]
      (Passenger.new 1 2) [0]).2.1 (by decide),
   ((best_lift_total_bounds [{ state := Lift.new 0, readable := true }]
      (Passenger.new 1 2) [0]).2.2.1 (by decide) (by decide)).2,
   (best_lift_total_bounds ([] : List MLift) (Passenger.new 1 2) [0]).2.2.2 rfl⟩

theorem mem_of_mem_binary_add {α : Type} [DecidableEq α] (lt : α → α → Bool) {l : List α}
    {x y : α} (h : y ∈ binary_add lt l x) : y ∈ l ∨ y = x := by
  by_cases hx : x ∈ l
  · rw [binary_add_of_mem lt hx] at h
    exact Or.inl h
  · rw [binary_add_of_not_mem lt hx] at h
    rcases (List.mem_insertIdx (length_takeWhile_le _ l)).1 h with h | h
    · exact Or.inr h
    · exact Or.inl h

theorem board_loop_spec (nf : Int) :
    ∀ (ps : List Passenger) (ts : List Int),
      List.Sorted (· < ·) ts →
      (∀ p ∈ ps, p.riding = true → p.to_floor ≠ nf → p.to_floor ∈ ts) →
      List.Sorted (· < ·) (board_loop nf ps ts).2 ∧
      (∀ t ∈ ts, t ∈ (board_loop nf ps ts).2) ∧
      ∀ q ∈ (board_loop nf ps ts).1, q.riding = true → q.to_floor ∈ (board_loop nf ps ts).2
  | [], ts, hs, _ =>
    ⟨hs, fun _ ht => ht, fun q hq => absurd hq (List.not_mem_nil q)⟩
  | p :: rest, ts, hs, hpre => by
    by_cases hf : p.from_floor = nf
    · have hpre1 : ∀ q ∈ rest, q.riding = true → q.to_floor ≠ nf →
          q.to_floor ∈ binary_add intLt ts p.to_floor :=
        fun q hq hr hn =>
          mem_binary_add_of_mem intLt p.to_floor (hpre q (List.mem_cons_of_mem p hq) hr hn)
      obtain ⟨ihs, ihm, ihi⟩ := board_loop_spec nf rest (binary_add intLt ts p.to_floor)
        (sorted_binary_add p.to_floor hs) hpre1
      simp only [board_loop, hf, if_true, if_pos rfl]
      by_cases hdrop : p.to_floor = nf
      · rw [if_pos ⟨hdrop, trivial⟩]
        exact ⟨ihs, fun t ht => ihm t (mem_binary_add_of_mem intLt p.to_floor ht), ihi⟩
      · rw [if_neg fun hc => hdrop hc.1]
        refine ⟨ihs, fun t ht => ihm t (mem_binary_add_of_mem intLt p.to_floor ht),
          fun q hq hr => ?_⟩
        rcases List.mem_cons.1 hq with hq | hq
        · subst hq
          exact ihm p.to_floor (mem_binary_add_self intLt ts p.to_floor)
        · exact ihi q hq hr
    · have hpre1 : ∀ q ∈ rest, q.riding = true → q.to_floor ≠ nf → q.to_floor ∈ ts :=
        fun q hq => hpre q (List.mem_cons_of_mem p hq)
      obtain ⟨ihs, ihm, ihi⟩ := board_loop_spec nf rest ts hs hpre1
      simp only [board_loop, hf, if_false]
      by_cases hdrop : p.to_floor = nf ∧ p.riding = true
      · rw [if_pos hdrop]
        exact ⟨ihs, ihm, ihi⟩
      · rw [if_neg hdrop]
        refine ⟨ihs, ihm, fun q hq hr => ?_⟩
        rcases List.mem_cons.1 hq with hq | hq
        · subst hq
          have hn : q.to_floor ≠ nf := fun hc => hdrop ⟨hc, hr⟩
          exact ihm q.to_floor (hpre q (List.mem_cons_self q rest) hr hn)
        · exact ihi q hq hr

theorem reach_floor_eq_error (s : LiftState) (nf : Int) (pos : Nat)
    (hbs : binary_search intLt s.targets nf = Except.error pos) :
    reach_floor s nf =
      { s with floor := nf,
               passengers := (board_loop nf s.passengers s.targets).1,
               targets := (board_loop nf s.passengers s.targets).2 } := by
  simp [reach_floor, hbs]

theorem reach_floor_eq_ok (s : LiftState) (nf : Int) (pos : Nat)
    (hbs : binary_search intLt s.targets nf = Except.ok pos) :
    reach_floor s nf =
      { s with floor := nf,
               passengers := (board_loop nf s.passengers (s.targets.eraseIdx pos)).1,
               targets := (board_loop nf s.passengers (s.targets.eraseIdx pos)).2,
               doors_open := false } := by
  simp [reach_floor, hbs]

/-- The invariant behind C7: the target queue is strictly sorted, and every
riding passenger's destination is in it. -/
def LiftInv (s : LiftState) : Prop :=
  List.Sorted (· < ·) s.targets ∧
  ∀ p ∈ s.passengers, p.riding = true → p.to_floor ∈ s.targets

theorem reach_floor_inv (s : LiftState) (nf : Int) (h : LiftInv s) :
    LiftInv (reach_floor s nf) := by
  obtain ⟨hs, hinv⟩ := h
  cases hbs : binary_search intLt s.targets nf with
  | error pos =>
    rw [reach_floor_eq_error s nf pos hbs]
    have hspec := board_loop_spec nf s.passengers s.targets hs
      (fun p hp hr _ => hinv p hp hr)
    exact ⟨hspec.1, fun p hp hr => hspec.2.2 p hp hr⟩
  | ok pos =>
    rw [reach_floor_eq_ok s nf pos hbs]
    have hmem : nf ∈ s.targets ∧ pos = (s.targets.takeWhile (fun y => intLt y nf)).length := by
      rw [binary_search] at hbs
      by_cases hx : nf ∈ s.targets
      · rw [if_pos hx] at hbs
        exact ⟨hx, (Except.ok.inj hbs).symm⟩
      · rw [if_neg hx] at hbs
        cases hbs
    have hget : s.targets.get? pos = some nf := by
      rw [hmem.2]
      exact get_search_pos s.targets nf hs hmem.1
    have hpre : ∀ p ∈ s.passengers, p.riding = true → p.to_floor ≠ nf →
        p.to_floor ∈ s.targets.eraseIdx pos :=
      fun p hp hr hn => mem_eraseIdx_of_ne s.targets pos nf p.to_floor hget (hinv p hp hr) hn
    have hspec := board_loop_spec nf s.passengers (s.targets.eraseIdx pos)
      (sorted_eraseIdx pos hs) hpre
    exact ⟨hspec.1, fun p hp hr => hspec.2.2 p hp hr⟩

theorem add_passenger_inv (s : LiftState) (f t : Int) (h : LiftInv s) :
    LiftInv (add_passenger s (Passenger.new f t)) := by
  obtain ⟨hs, hinv⟩ := h
  refine ⟨sorted_binary_add f hs, fun p hp hr => ?_⟩
  rcases mem_of_mem_binary_add Passenger.lt hp with hp | hp
  · exact mem_binary_add_of_mem intLt f (hinv p hp hr)
  · subst hp
    cases hr

theorem next_target_state (s : LiftState) (t : Int) (s1 : LiftState)
    (h : next_target s = Except.ok (t, s1)) :
    s1.passengers = s.passengers ∧ s1.targets = s.targets := by
  simp only [next_target] at h
  by_cases he : s.targets.isEmpty
  · rw [if_pos he] at h
    cases h
  · rw [if_neg he] at h
    cases hbs : binary_search intLt s.targets s.floor with
    | ok x =>
      simp only [hbs] at h
      split_ifs at h <;>
        · simp only [Except.ok.injEq, Prod.mk.injEq] at h
          obtain ⟨-, h2⟩ := h
          subst h2
          exact ⟨rfl, rfl⟩
    | error pos =>
      simp only [hbs] at h
      split_ifs at h <;>
        · simp only [Except.ok.injEq, Prod.mk.injEq] at h
          obtain ⟨-, h2⟩ := h
          subst h2
          exact ⟨rfl, rfl⟩

theorem move_towards_inv (s : LiftState) (t : Int) (h : LiftInv s) :
    LiftInv (move_towards s t) := by
  have h1 : LiftInv (if t > s.floor then set_direction s Direction.Up
      else if t < s.floor then set_direction s Direction.Down else s) := by
    split_ifs <;> exact h
  rw [move_towards]
  cases hd : s.direction <;> simp only [hd] <;> exact reach_floor_inv _ _ h1

/-- The lift states reachable from `Lift::new` through the state-machine
operations: `add_passenger` (with an externally constructed passenger, so
`riding = false`), `reach_floor`, a successful `next_target`, and
`move_towards`. -/
inductive Reachable : LiftState → Prop where
  | init (id : Nat) : Reachable (Lift.new id)
  | add_passenger (s : LiftState) (f t : Int) : Reachable s →
      Reachable (add_passenger s (Passenger.new f t))
  | reach_floor (s : LiftState) (nf : Int) : Reachable s → Reachable (reach_floor s nf)
  | next_target (s : LiftState) (t : Int) (s1 : LiftState) : Reachable s →
      next_target s = Except.ok (t, s1) → Reachable s1
  | move_towards (s : LiftState) (t : Int) : Reachable s → Reachable (move_towards s t)

theorem reachable_inv (s : LiftState) (h : Reachable s) : LiftInv s := by
  induction h with
  | init id => exact ⟨List.sorted_nil, fun p hp => absurd hp (List.not_mem_nil p)⟩
  | add_passenger s f t _ ih => exact add_passenger_inv s f t ih
  | reach_floor s nf _ ih => exact reach_floor_inv s nf ih
  | next_target s t s1 _ heq ih =>
    obtain ⟨hpass, htar⟩ := next_target_state s t s1 heq
    exact ⟨htar ▸ ih.1, fun p hp hr => htar ▸ ih.2 p (hpass ▸ hp) hr⟩
  | move_towards s t _ ih => exact move_towards_inv s t ih

/-- C7: in every lift state reachable from the initial state through
`add_passenger`, `reach_floor`, `next_target` and `move_towards`, every
passenger marked riding has their destination floor in the target queue. -/
theorem riding_to_floor_in_targets (s : LiftState) (h : Reachable s) (p : Passenger)
    (hp : p ∈ s.passengers) (hr : p.riding = true) : p.to_floor ∈ s.targets :=
  (reachable_inv s h).2 p hp hr

/-- Witness for C7: board a passenger travelling from floor 0 to floor 3 on
a fresh lift and let the lift reach floor 0 — the passenger is riding, and
destination 3 is in the queue. -/
theorem riding_to_floor_in_targets_witness :
    (3 : Int) ∈ (reach_floor (add_passenger (Lift.new 0) (Passenger.new 0 3)) 0).targets :=
  riding_to_floor_in_targets _
    (Reachable.reach_floor _ 0 (Reachable.add_passenger _ 0 3 (Reachable.init 0)))
    { from_floor := 0, to_floor := 3, riding := true } (by decide) rfl
